import Mathlib

/-!
Verification of the placeholder templating engine of the NHS-TinNhan
message-template manager (an insurance message-template app).

The engine functions of the source — `extractVariables`, `replaceVariables`,
`normalizeContent`, `htmlToPlainText` and the `suggestContent` service guard —
are embedded below as functions over `List Char`, translated directly from
the TypeScript source.  JavaScript strings become `List Char`;
`Record<string, string>` value maps become ordered association lists (the
list order is the `Object.entries` enumeration order).

The per-key step `text.replace(new RegExp("\\{" + key + "\\}", "g"), v)` is
embedded in two layers.  `replaceAllJS` implements `String.replace` with a
global pattern that matches exactly the literal `{key}`, including the
`GetSubstitution` treatment of `$` sequences in the replacement string (the
constructed pattern has no capture groups, so the special sequences are
`$$`, `$&`, the before-match and after-match references, and everything
else is literal).  The pattern matches exactly literally when the key
contains no regex syntax character (`regexSafeKey`); that hypothesis
appears explicitly in every theorem about substitution.  `replaceVariablesE`
additionally embeds the error path of the `RegExp` constructor, which runs
before the value is even inspected: a key forming an unclosed group — such
as `(` — makes the construction throw a SyntaxError.  Source-level replaces
whose replacement is a fixed `$`-free string (the three escape entities and
`<br>`) are embedded by the plain literal `replaceAll`, with which
`replaceAllJS` provably coincides for `$`-free replacements.
-/

namespace InsureChat

/-- Holds when the first argument is an initial segment of the second. -/
def startsSeg : List Char → List Char → Bool
  | [], _ => true
  | _ :: _, [] => false
  | p :: ps, c :: cs => if p = c then startsSeg ps cs else false

/-- Holds when the pattern occurs contiguously inside the second argument. -/
def containsSeg (pat : List Char) : List Char → Bool
  | [] => startsSeg pat []
  | c :: cs => startsSeg pat (c :: cs) || containsSeg pat cs

/-- Global, leftmost, non-overlapping replacement of the literal segment
`pat` by `rep` inside `s`; replacements are not rescanned.  This is the
semantics of JavaScript `String.prototype.replace` with a global pattern
matching exactly the literal `pat` and a replacement containing no `$`
sequence — the form of the source's three escape-entity replaces and of
its newline-to-`<br>` replace (all with fixed `$`-free replacements).  The
general replacement semantics, `$` sequences included, is `replaceAllJS`
below, which coincides with this function for `$`-free replacements. -/
def replaceAll (s pat rep : List Char) : List Char :=
  match s with
  | [] => []
  | c :: cs =>
    if _h : pat ≠ [] ∧ startsSeg pat (c :: cs) = true then
      rep ++ replaceAll ((c :: cs).drop pat.length) pat rep
    else
      c :: replaceAll cs pat rep
termination_by s.length
decreasing_by
  · have hp : 0 < pat.length := List.length_pos.mpr _h.1
    simp only [List.length_drop, List.length_cons]
    omega
  · simp

/-- Character-by-character substitution of the single character `t` by the
segment `rep`; the specification of a single-character global replace. -/
def subChar (t : Char) (rep : List Char) : List Char → List Char
  | [] => []
  | c :: cs => (if c = t then rep else [c]) ++ subChar t rep cs

/-- The literal text `{n}` of a placeholder named `n`. -/
def phLit (n : List Char) : List Char := '{' :: (n ++ ['}'])

/-- Embeds the value-escaping chain of `replaceVariables` (source
`part_001`, line 48): `value.replace(/&/g, "&amp;").replace(/</g,
"&lt;").replace(/>/g, "&gt;")` — ampersand first. -/
def escapeHtml (value : List Char) : List Char :=
  replaceAll (replaceAll (replaceAll value ['&'] "&amp;".data) ['<'] "&lt;".data)
    ['>'] "&gt;".data

/-- Embeds the `safeValue` expression of `replaceVariables` (source
`part_001`, line 48): a non-empty (truthy) value is HTML-escaped, an empty
value yields the literal placeholder text back. -/
def safeValue (key value : List Char) : List Char :=
  if value.isEmpty then phLit key else escapeHtml value

/-- The backquote character (code point 96), the before-match reference
introducer of JavaScript replacement strings. -/
def backquote : Char := Char.ofNat 96

/-- The apostrophe character (code point 39), the after-match reference
introducer of JavaScript replacement strings. -/
def apostrophe : Char := Char.ofNat 39

/-- ECMAScript `GetSubstitution` for a pattern with zero capture groups
(the case of `\{key\}` for a regex-safe key): in the replacement string,
`$$` yields `$`, `$&` yields the matched substring, a `$` followed by the
backquote yields the part of the subject before the match, a `$` followed
by the apostrophe yields the part after the match, and any other `$`
(including `$` before a digit, since there are no capture groups, and a
trailing `$`) is literal. -/
def dollarSubst (matched before after : List Char) : List Char → List Char
  | [] => []
  | c :: rest =>
    if c = '$' then
      match rest with
      | [] => ['$']
      | d :: rest2 =>
        if d = '$' then '$' :: dollarSubst matched before after rest2
        else if d = '&' then matched ++ dollarSubst matched before after rest2
        else if d = backquote then before ++ dollarSubst matched before after rest2
        else if d = apostrophe then after ++ dollarSubst matched before after rest2
        else '$' :: d :: dollarSubst matched before after rest2
    else c :: dollarSubst matched before after rest

/-- Worker of `replaceAllJS`: scans the remaining subject while carrying
the already-scanned original prefix `before`, so that each match can hand
`GetSubstitution` the matched text, the part of the original subject
before the match and the part after it. -/
def replaceAllSub (pat rep : List Char) : List Char → List Char → List Char
  | _, [] => []
  | before, c :: cs =>
    if _h : pat ≠ [] ∧ startsSeg pat (c :: cs) = true then
      dollarSubst pat before ((c :: cs).drop pat.length) rep
        ++ replaceAllSub pat rep (before ++ pat) ((c :: cs).drop pat.length)
    else
      c :: replaceAllSub pat rep (before ++ [c]) cs
termination_by _ s => s.length
decreasing_by
  · have hp : 0 < pat.length := List.length_pos.mpr _h.1
    simp only [List.length_drop, List.length_cons]
    omega
  · simp

/-- JavaScript `String.prototype.replace` with a global pattern matching
exactly the literal `pat`: leftmost, non-overlapping, replacements not
rescanned, and the replacement string interpreted by `GetSubstitution`
(`dollarSubst`, zero capture groups). -/
def replaceAllJS (s pat rep : List Char) : List Char := replaceAllSub pat rep [] s

/-- Holds for a character that is not an ECMAScript regex syntax character
(backslash, caret, dollar, dot, star, plus, question mark, parentheses,
brackets, braces, vertical bar).  A key of such characters embedded in
`\{key\}` builds a valid regex that matches exactly the literal text
`{key}` and has no capture groups. -/
def regexSafeChar (c : Char) : Bool :=
  !(decide (c = '^' ∨ c = '$' ∨ c = '\\' ∨ c = '.' ∨ c = '*' ∨ c = '+' ∨ c = '?'
    ∨ c = '(' ∨ c = ')' ∨ c = '[' ∨ c = ']' ∨ c = '{' ∨ c = '}' ∨ c = '|'))

/-- Holds for a key whose characters are all regex-safe. -/
def regexSafeKey (k : List Char) : Bool := k.all regexSafeChar

/-- Holds for a key for which `new RegExp("\{" + key + "\}", 'g')`
certainly throws a SyntaxError: the key contains an open parenthesis but
no close parenthesis, no bracket that could hide it in a character class
and no backslash that could escape it, so the pattern contains a group
that is never closed.  This is a sufficient condition, not a
characterization: other keys also throw, and keys that are neither safe
nor in this class can build valid regexes with non-literal matching,
which is outside this embedding. -/
def keyRegexThrows (k : List Char) : Bool :=
  decide ('(' ∈ k ∧ ')' ∉ k ∧ '[' ∉ k ∧ '\\' ∉ k)

/-- A segment containing no dollar character, so that `GetSubstitution`
leaves it unchanged. -/
def dollarFree (s : List Char) : Bool := decide ('$' ∉ s)

/-- Embeds `replaceVariables` (source `part_001`, lines 42–52): fold over
the entries of the variable map in enumeration order, globally replacing
the pattern built from the key by the escaped value (or by `{key}` itself
when the value is empty) with full `String.replace` semantics.  This
value-level function covers maps whose keys are regex-safe, where the
constructed pattern matches exactly the literal `{key}`; the error path of
the `RegExp` construction is embedded by `replaceVariablesE` below. -/
def replaceVariables (text : List Char)
    (vars : List (List Char × List Char)) : List Char :=
  vars.foldl (fun acc kv => replaceAllJS acc (phLit kv.1) (safeValue kv.1 kv.2)) text

/-- Embeds `replaceVariables` with the error path of line 46: the
`new RegExp` construction runs before the value is inspected, so the first
key of the enumeration whose pattern is invalid aborts the whole call with
a thrown SyntaxError (the engine-specific message is abstracted to the
error name).  Keys flagged by `keyRegexThrows` certainly throw; the
successful branch is faithful for regex-safe keys. -/
def replaceVariablesE (text : List Char)
    (vars : List (List Char × List Char)) : Except (List Char) (List Char) :=
  vars.foldl (fun acc kv =>
    match acc with
    | Except.error e => Except.error e
    | Except.ok t =>
      if keyRegexThrows kv.1 then Except.error "SyntaxError".data
      else Except.ok (replaceAllJS t (phLit kv.1) (safeValue kv.1 kv.2)))
    (Except.ok text)

/-- Embeds the global scan of the regex `/\{([^}]+)\}/g` used by
`extractVariables` (source `part_001`, lines 34–40): at each position a
match is an open brace, a maximal non-empty run of non-close-brace
characters, then a close brace; matching is leftmost and non-overlapping
and returns the full matched texts. -/
def scanMatches (s : List Char) : List (List Char) :=
  match s with
  | [] => []
  | c :: rest =>
    if c = '{' then
      if _h : rest.dropWhile (fun d => d != '}') ≠ []
          ∧ rest.takeWhile (fun d => d != '}') ≠ [] then
        ('{' :: (rest.takeWhile (fun d => d != '}') ++ ['}']))
          :: scanMatches ((rest.dropWhile (fun d => d != '}')).tail)
      else scanMatches rest
    else scanMatches rest
termination_by s.length
decreasing_by
  · have h2 := congrArg List.length
      (List.takeWhile_append_dropWhile (fun d => d != '}') cs)
    have h3 := (cs.dropWhile (fun d => d != '}')).length_tail
    have h4 : 0 < (cs.dropWhile (fun d => d != '}')).length :=
      List.length_pos.mpr _h.1
    simp only [List.length_append] at h2
    simp only [List.length_cons]
    omega
  · simp
  · simp

/-- The inner name of a full placeholder match: JavaScript
`m.slice(1, -1)`. -/
def innerName (m : List Char) : List Char := (m.drop 1).dropLast

/-- Order-preserving deduplication with an accumulator of already-seen
elements; `dedupAux [] l` is the JavaScript `[...new Set(l)]` (insertion
order, i.e. first-occurrence order). -/
def dedupAux {α : Type} [DecidableEq α] (seen : List α) : List α → List α
  | [] => []
  | x :: xs => if x ∈ seen then dedupAux seen xs else x :: dedupAux (x :: seen) xs

/-- Embeds `extractVariables` (source `part_001`, lines 34–40): collect all
regex matches, deduplicate preserving first occurrence, strip the braces. -/
def extractVariables (text : List Char) : List (List Char) :=
  (dedupAux [] (scanMatches text)).map innerName

/-- The sequence of placeholder names in occurrence order (with
duplicates), i.e. the matches of the scan with the braces stripped. -/
def scanNames (text : List Char) : List (List Char) :=
  (scanMatches text).map innerName

/-- An ASCII letter, as matched by `[a-z]` under the `i` flag. -/
def isTagLetter (c : Char) : Bool :=
  decide (('a' ≤ c ∧ c ≤ 'z') ∨ ('A' ≤ c ∧ c ≤ 'Z'))

/-- Embeds the test of the regex `/<[a-z][\s\S]*>/i` used by
`normalizeContent` (source `part_001`, line 58): the content contains a `<`
immediately followed by an ASCII letter, with a `>` somewhere after that
letter. -/
def hasHtmlTag : List Char → Bool
  | [] => false
  | c :: rest =>
    (match rest with
     | [] => false
     | d :: rest2 => if c = '<' ∧ isTagLetter d = true then decide ('>' ∈ rest2) else false)
    || hasHtmlTag rest

/-- Embeds `normalizeContent` (source `part_001`, lines 55–62): empty
content stays empty; content with no HTML tag but with raw newlines has
every newline replaced by `<br>`; anything else is returned unchanged. -/
def normalizeContent (content : List Char) : List Char :=
  if content.isEmpty then []
  else if hasHtmlTag content = false ∧ '\n' ∈ content then
    replaceAll content ['\n'] "<br>".data
  else content

/-- The character-wise escaping specification: `&`, `<`, `>` map to their
entities, everything else is untouched. -/
def escChar (c : Char) : List Char :=
  if c = '&' then "&amp;".data
  else if c = '<' then "&lt;".data
  else if c = '>' then "&gt;".data
  else [c]

/-- One character-wise escaping pass over a whole segment. -/
def escAll : List Char → List Char
  | [] => []
  | c :: cs => escChar c ++ escAll cs

/-- A segment containing neither brace character. -/
def braceFree (s : List Char) : Bool := s.all fun c => decide (c ≠ '{' ∧ c ≠ '}')

/-- Every ampersand in the segment is the start of one of the three escape
entities `&amp;`, `&lt;`, `&gt;` — i.e. the segment has no unescaped `&`. -/
def ampOK : List Char → Bool
  | [] => true
  | c :: cs =>
    (if c = '&' then
      startsSeg "amp;".data cs || startsSeg "lt;".data cs || startsSeg "gt;".data cs
     else true) && ampOK cs

/-- One segment of a well-formed template content: literal text or a
placeholder. -/
inductive Seg where
  | lit : List Char → Seg
  | ph : List Char → Seg
deriving DecidableEq

/-- Render one segment back to text. -/
def renderSeg : Seg → List Char
  | .lit s => s
  | .ph n => phLit n

/-- Render a whole alternation back to text. -/
def render : List Seg → List Char
  | [] => []
  | sg :: rest => renderSeg sg ++ render rest

/-- Well-formedness of one segment: literals are brace-free, placeholder
names are non-empty and brace-free. -/
def segOK : Seg → Bool
  | .lit s => braceFree s
  | .ph n => !n.isEmpty && braceFree n

/-- Well-formedness of an alternation. -/
def segsOK (segs : List Seg) : Bool := segs.all segOK

/-- Well-formedness of one variable-map entry: a non-empty regex-safe key
(a plain placeholder name, brace-free in particular) and a value free of
braces and of dollar characters. -/
def varOK (kv : List Char × List Char) : Bool :=
  !kv.1.isEmpty && regexSafeKey kv.1 && (braceFree kv.2 && dollarFree kv.2)

/-- Well-formedness of a variable map. -/
def varsOK (vars : List (List Char × List Char)) : Bool := vars.all varOK

/-- The effect of the pass for key `k` with (escaped) replacement `rep` on
one segment: the placeholders named `k` become literal text `rep`. -/
def substSeg (k rep : List Char) (sg : Seg) : Seg :=
  if sg = Seg.ph k then Seg.lit rep else sg

/-- The effect of one variable-map entry on one segment: an entry with an
empty value changes nothing, an entry with a non-empty value turns the
placeholders of its key into escaped literal text. -/
def passSeg (kv : List Char × List Char) (sg : Seg) : Seg :=
  if kv.2.isEmpty then sg else substSeg kv.1 (escapeHtml kv.2) sg

/-- The effect of the whole variable map on an alternation of segments. -/
def applyVars (vars : List (List Char × List Char)) (segs : List Seg) : List Seg :=
  vars.foldl (fun acc kv => acc.map (passSeg kv)) segs

/-- Index of the first occurrence of an element in a list (length of the
list when absent). -/
def firstIdx {α : Type} [DecidableEq α] (a : α) : List α → Nat
  | [] => 0
  | x :: xs => if x = a then 0 else firstIdx a xs + 1

/-- Node model of the parsed HTML fragment handled by `htmlToPlainText`
(source `part_001`, lines 64–82).  The browser's `innerHTML` parse is
outside the repository; the model works on the parsed forest of element
and text nodes directly. -/
inductive DomNode where
  | text : List Char → DomNode
  | elem : List Char → List DomNode → DomNode

/-- The block tags of the source's `blockElements` list whose elements get
a newline appended after them (`p`, `div`, `li`, `tr`; `br` is replaced by
a newline instead). -/
def blockAfterTags : List (List Char) := ["p".data, "div".data, "li".data, "tr".data]

/-- Embeds `htmlToPlainText` on a parsed node forest: a `br` element is
replaced by one newline (`el.replaceWith` drops the element with its — in
well-formed markup empty — content), each `p`/`div`/`li`/`tr` element gets
one newline after it (`el.after`), and the result is the concatenated
remaining text content (`textContent`) in document order. -/
def plainTextF : List DomNode → List Char
  | [] => []
  | DomNode.text s :: rest => s ++ plainTextF rest
  | DomNode.elem tag kids :: rest =>
    (if tag = "br".data then ['\n']
     else plainTextF kids ++ (if tag ∈ blockAfterTags then ['\n'] else []))
      ++ plainTextF rest

/-- The text content of a forest in document order, with no separators. -/
def textOnly : List DomNode → List Char
  | [] => []
  | DomNode.text s :: rest => s ++ textOnly rest
  | DomNode.elem _ kids :: rest => textOnly kids ++ textOnly rest

/-- All text nodes of the forest avoid the raw angle brackets (in
well-formed markup text they appear only as entities). -/
def textAngleFree : List DomNode → Bool
  | [] => true
  | DomNode.text s :: rest => decide ('<' ∉ s ∧ '>' ∉ s) && textAngleFree rest
  | DomNode.elem _ kids :: rest => textAngleFree kids && textAngleFree rest

/-- Every `br` element of the forest is childless (true of any parse of
well-formed markup, where `br` is a void element). -/
def brChildless : List DomNode → Bool
  | [] => true
  | DomNode.text _ :: rest => brChildless rest
  | DomNode.elem tag kids :: rest =>
    (if tag = "br".data then kids.isEmpty else true) && brChildless kids && brChildless rest

/-- The outcome of one `suggestContent` call as visible at its boundary: a
configuration error thrown before any provider interaction, or a single
request issued to the provider (model name and prompt). -/
inductive SuggestOutcome where
  | configError : List Char → SuggestOutcome
  | providerCall : List Char → List Char → SuggestOutcome

/-- The prompt text of `suggestContent` (source
`services/geminiService.ts`, lines 15–27) with the instruction and current
content interpolated; the template literal's framing whitespace is
abbreviated to single line breaks. -/
def geminiPrompt (currentContent instruction : List Char) : List Char :=
  ("Bạn là một trợ lý viết tin nhắn chuyên nghiệp cho tư vấn viên bảo hiểm nhân thọ tại Việt Nam.\n\nNhiệm vụ: Viết lại hoặc cải thiện nội dung tin nhắn dưới đây theo yêu cầu: \"".data)
  ++ instruction
  ++ "\".\n\nNội dung gốc (HTML):\n\"".data
  ++ currentContent
  ++ ("\"\n\nYêu cầu bắt buộc:\n1. Giữ nguyên các biến trong ngoặc nhọn, ví dụ ".data
      ++ phLit "ten_khach".data ++ ", ".data ++ phLit "danh_xung".data
      ++ " nếu có.\n2. Văn phong tự nhiên, chân thành, chuyên nghiệp, phù hợp với văn hóa Việt Nam.\n3. Trả về kết quả dưới dạng HTML đơn giản (sử dụng <b> để in đậm, <i> để in nghiêng, <br> để xuống dòng). KHÔNG dùng Markdown.\n4. Chỉ trả về nội dung tin nhắn mới, không bao gồm lời dẫn hay giải thích.".data)

/-- Embeds `suggestContent` (source `services/geminiService.ts`, lines
9–39): with no configured credential (`process.env.API_KEY || ''` is the
empty string, which is falsy) the function throws the configuration error
before building the prompt or contacting the provider; otherwise it issues
one request to the `gemini-2.5-flash` model. -/
def suggestContent (apiKey currentContent instruction : List Char) : SuggestOutcome :=
  if apiKey.isEmpty then SuggestOutcome.configError "API Key chưa được cấu hình.".data
  else SuggestOutcome.providerCall "gemini-2.5-flash".data
    (geminiPrompt currentContent instruction)

end InsureChat

/-! ## Theorems -/

namespace InsureChat

theorem startsSeg_self_append (pat t : List Char) :
    startsSeg pat (pat ++ t) = true := by
  induction pat with
  | nil => simp [startsSeg]
  | cons p ps ih => simp [startsSeg, ih]

theorem startsSeg_exists {pat s : List Char} (h : startsSeg pat s = true) :
    ∃ t, s = pat ++ t := by
  induction pat generalizing s with
  | nil => exact ⟨s, rfl⟩
  | cons p ps ih =>
    cases s with
    | nil => simp [startsSeg] at h
    | cons c cs =>
      simp only [startsSeg] at h
      split at h
      · obtain ⟨t, ht⟩ := ih h
        exact ⟨t, by simp_all⟩
      · simp at h

theorem containsSeg_of_startsSeg {pat s : List Char} (h : startsSeg pat s = true) :
    containsSeg pat s = true := by
  cases s <;> simp [containsSeg, h]

theorem containsSeg_of_append (pat a b : List Char) :
    containsSeg pat (a ++ pat ++ b) = true := by
  induction a with
  | nil =>
    simp only [List.nil_append]
    exact containsSeg_of_startsSeg (startsSeg_self_append pat b)
  | cons x a ih =>
    have h2 : (x :: a) ++ pat ++ b = x :: (a ++ pat ++ b) := by simp
    rw [h2]
    have h3 : containsSeg pat (x :: (a ++ pat ++ b))
        = (startsSeg pat (x :: (a ++ pat ++ b)) || containsSeg pat (a ++ pat ++ b)) := rfl
    rw [h3, ih]
    simp

theorem exists_of_containsSeg {pat s : List Char} (h : containsSeg pat s = true) :
    ∃ a b, s = a ++ pat ++ b := by
  induction s with
  | nil =>
    simp only [containsSeg] at h
    obtain ⟨t, ht⟩ := startsSeg_exists h
    exact ⟨[], t, by simp [← ht]⟩
  | cons c cs ih =>
    simp only [containsSeg, Bool.or_eq_true] at h
    rcases h with h | h
    · obtain ⟨t, ht⟩ := startsSeg_exists h
      exact ⟨[], t, by simp [ht]⟩
    · obtain ⟨a, b, hab⟩ := ih h
      exact ⟨c :: a, b, by simp [hab]⟩

theorem replaceAll_nil (pat rep : List Char) : replaceAll [] pat rep = [] := by
  simp [replaceAll]

theorem replaceAll_cons_pos (cs pat rep : List Char) (c : Char)
    (hp : pat ≠ []) (hs : startsSeg pat (c :: cs) = true) :
    replaceAll (c :: cs) pat rep = rep ++ replaceAll ((c :: cs).drop pat.length) pat rep := by
  rw [replaceAll]
  simp [hp, hs]

theorem replaceAll_cons_neg (cs pat rep : List Char) (c : Char)
    (hs : ¬(pat ≠ [] ∧ startsSeg pat (c :: cs) = true)) :
    replaceAll (c :: cs) pat rep = c :: replaceAll cs pat rep := by
  rw [replaceAll]
  simp only [hs]
  simp

theorem replaceAll_single (s : List Char) (t : Char) (rep : List Char) :
    replaceAll s [t] rep = subChar t rep s := by
  induction s with
  | nil => simp [replaceAll, subChar]
  | cons c cs ih =>
    by_cases hc : c = t
    · subst hc
      rw [replaceAll_cons_pos cs [c] rep c (by simp) (by simp [startsSeg])]
      simp [subChar, ih]
    · rw [replaceAll_cons_neg cs [t] rep c (by simp [startsSeg, Ne.symm hc, hc])]
      simp [subChar, hc, ih]

theorem subChar_append (t : Char) (rep a b : List Char) :
    subChar t rep (a ++ b) = subChar t rep a ++ subChar t rep b := by
  induction a with
  | nil => simp [subChar]
  | cons c cs ih => simp [subChar, ih]

theorem self_not_mem_subChar {t : Char} {rep : List Char} (hrep : t ∉ rep) :
    ∀ s, t ∉ subChar t rep s := by
  intro s
  induction s with
  | nil => simp [subChar]
  | cons c cs ih =>
    simp only [subChar, List.mem_append]
    rintro (h | h)
    · split at h
      · exact hrep h
      · next hc =>
        simp only [List.mem_singleton] at h
        exact hc h.symm
    · exact ih h

theorem replaceAll_self (s pat : List Char) : replaceAll s pat pat = s := by
  generalize hn : s.length = n
  induction n using Nat.strongRecOn generalizing s with
  | ind n ih =>
    cases s with
    | nil => simp [replaceAll]
    | cons c cs =>
      by_cases h : pat ≠ [] ∧ startsSeg pat (c :: cs) = true
      · rw [replaceAll_cons_pos cs pat pat c h.1 h.2]
        obtain ⟨t, ht⟩ := startsSeg_exists h.2
        rw [ht, List.drop_left]
        have hp : 0 < pat.length := List.length_pos.mpr h.1
        have hlen : (c :: cs).length = pat.length + t.length := by rw [ht]; simp
        rw [ih t.length (by omega) t rfl]
      · rw [replaceAll_cons_neg cs pat pat c h]
        have hlt : cs.length < n := by
          simp only [List.length_cons] at hn
          omega
        rw [ih cs.length hlt cs rfl]

theorem not_containsSeg_of_not_mem {x : Char} {pat s : List Char}
    (hx : x ∈ pat) (hs : x ∉ s) : containsSeg pat s = false := by
  by_contra h
  simp only [Bool.not_eq_false] at h
  obtain ⟨a, b, hab⟩ := exists_of_containsSeg h
  exact hs (by rw [hab]; simp [hx])

theorem replaceAll_of_not_contains {s pat : List Char} (rep : List Char)
    (h : containsSeg pat s = false) : replaceAll s pat rep = s := by
  induction s with
  | nil => simp [replaceAll]
  | cons c cs ih =>
    simp only [containsSeg, Bool.or_eq_false_iff] at h
    rw [replaceAll_cons_neg cs pat rep c (by simp [h.1])]
    rw [ih h.2]

theorem dollarSubst_no_dollar {rep : List Char} (h : '$' ∉ rep)
    (m b a : List Char) : dollarSubst m b a rep = rep := by
  induction rep with
  | nil => rfl
  | cons c cs ih =>
    have hc : c ≠ '$' := fun he => h (by simp [he])
    rw [dollarSubst.eq_def]
    simp only [if_neg hc]
    rw [ih (fun hm => h (by simp [hm]))]

theorem replaceAllSub_nil (pat rep before : List Char) :
    replaceAllSub pat rep before [] = [] := by
  rw [replaceAllSub]

theorem replaceAllSub_cons_pos (cs pat rep before : List Char) (c : Char)
    (hp : pat ≠ []) (hs : startsSeg pat (c :: cs) = true) :
    replaceAllSub pat rep before (c :: cs)
      = dollarSubst pat before ((c :: cs).drop pat.length) rep
        ++ replaceAllSub pat rep (before ++ pat) ((c :: cs).drop pat.length) := by
  rw [replaceAllSub]
  simp [hp, hs]

theorem replaceAllSub_cons_neg (cs pat rep before : List Char) (c : Char)
    (hs : ¬(pat ≠ [] ∧ startsSeg pat (c :: cs) = true)) :
    replaceAllSub pat rep before (c :: cs)
      = c :: replaceAllSub pat rep (before ++ [c]) cs := by
  rw [replaceAllSub]
  simp only [hs]
  simp

theorem replaceAllJS_eq_replaceAll {pat rep : List Char} (h : '$' ∉ rep)
    (s : List Char) : replaceAllJS s pat rep = replaceAll s pat rep := by
  unfold replaceAllJS
  generalize ([] : List Char) = before
  generalize hn : s.length = n
  induction n using Nat.strongRecOn generalizing s before with
  | ind n ih =>
    cases s with
    | nil => rw [replaceAllSub_nil, replaceAll_nil]
    | cons c cs =>
      by_cases hcond : pat ≠ [] ∧ startsSeg pat (c :: cs) = true
      · rw [replaceAllSub_cons_pos cs pat rep before c hcond.1 hcond.2,
          replaceAll_cons_pos cs pat rep c hcond.1 hcond.2,
          dollarSubst_no_dollar h]
        congr 1
        obtain ⟨t, ht⟩ := startsSeg_exists hcond.2
        have hp : 0 < pat.length := List.length_pos.mpr hcond.1
        have hlen : (c :: cs).length = pat.length + t.length := by rw [ht]; simp
        rw [show (c :: cs).drop pat.length = t from by rw [ht, List.drop_left]]
        exact ih t.length (by omega) t (before ++ pat) rfl
      · rw [replaceAllSub_cons_neg cs pat rep before c hcond,
          replaceAll_cons_neg cs pat rep c hcond]
        have hlt : cs.length < n := by
          simp only [List.length_cons] at hn
          omega
        rw [ih cs.length hlt cs (before ++ [c]) rfl]

theorem replaceAllJS_of_not_contains {pat : List Char} (rep : List Char) :
    ∀ s : List Char, containsSeg pat s = false → replaceAllJS s pat rep = s := by
  intro s
  unfold replaceAllJS
  generalize ([] : List Char) = before
  induction s generalizing before with
  | nil => intro _; rw [replaceAllSub_nil]
  | cons c cs ih =>
    intro h
    simp only [containsSeg, Bool.or_eq_false_iff] at h
    rw [replaceAllSub_cons_neg cs pat rep before c (by simp [h.1])]
    rw [ih (before ++ [c]) h.2]

theorem escAll_append (a b : List Char) : escAll (a ++ b) = escAll a ++ escAll b := by
  induction a with
  | nil => simp [escAll]
  | cons c cs ih => simp [escAll, ih]

theorem escapeHtml_eq_escAll (v : List Char) : escapeHtml v = escAll v := by
  unfold escapeHtml
  rw [replaceAll_single, replaceAll_single, replaceAll_single]
  induction v with
  | nil => simp [subChar, escAll]
  | cons c cs ih =>
    rw [show subChar '&' "&amp;".data (c :: cs)
          = (if c = '&' then "&amp;".data else [c]) ++ subChar '&' "&amp;".data cs from rfl]
    rw [subChar_append, subChar_append, escAll, ih]
    congr 1
    by_cases h1 : c = '&'
    · subst h1; simp [escChar]; rfl
    · by_cases h2 : c = '<'
      · subst h2; simp [escChar, h1]; rfl
      · by_cases h3 : c = '>'
        · subst h3; simp [escChar, h1, h2]; rfl
        · simp [escChar, subChar, h1, h2, h3]

theorem braceFree_iff {s : List Char} :
    braceFree s = true ↔ ∀ c ∈ s, c ≠ '{' ∧ c ≠ '}' := by
  simp [braceFree]

theorem open_not_mem_of_braceFree {s : List Char} (h : braceFree s = true) : '{' ∉ s := by
  intro hm
  exact (braceFree_iff.mp h '{' hm).1 rfl

theorem close_not_mem_of_braceFree {s : List Char} (h : braceFree s = true) : '}' ∉ s := by
  intro hm
  exact (braceFree_iff.mp h '}' hm).2 rfl

theorem braceFree_append {a b : List Char} :
    braceFree (a ++ b) = (braceFree a && braceFree b) := by
  simp [braceFree, List.all_append]

theorem braceFree_escAll {v : List Char} (h : braceFree v = true) :
    braceFree (escAll v) = true := by
  induction v with
  | nil => simp [escAll, braceFree]
  | cons c cs ih =>
    rw [braceFree_iff] at h
    have hc := h c (by simp)
    have htail : braceFree cs = true := braceFree_iff.mpr fun d hd => h d (by simp [hd])
    rw [show escAll (c :: cs) = escChar c ++ escAll cs from rfl, braceFree_append,
      Bool.and_eq_true]
    refine ⟨?_, ih htail⟩
    unfold escChar
    split
    · decide
    · split
      · decide
      · split
        · decide
        · rw [braceFree_iff]
          intro d hd
          simp only [List.mem_singleton] at hd
          exact hd ▸ hc

theorem angle_not_mem_escAll (v : List Char) :
    '<' ∉ escAll v ∧ '>' ∉ escAll v := by
  induction v with
  | nil => simp [escAll]
  | cons c cs ih =>
    rw [show escAll (c :: cs) = escChar c ++ escAll cs from rfl]
    simp only [List.mem_append, not_or]
    have hchunk : '<' ∉ escChar c ∧ '>' ∉ escChar c := by
      unfold escChar
      by_cases h1 : c = '&'
      · rw [if_pos h1]; decide
      · rw [if_neg h1]
        by_cases h2 : c = '<'
        · rw [if_pos h2]; decide
        · rw [if_neg h2]
          by_cases h3 : c = '>'
          · rw [if_pos h3]; decide
          · rw [if_neg h3]
            constructor
            · simp only [List.mem_singleton]
              exact fun hx => h2 hx.symm
            · simp only [List.mem_singleton]
              exact fun hx => h3 hx.symm
    exact ⟨⟨hchunk.1, ih.1⟩, ⟨hchunk.2, ih.2⟩⟩

theorem ampOK_amp_chunk (t : List Char) : ampOK ("&amp;".data ++ t) = ampOK t := by
  show ampOK ('&' :: 'a' :: 'm' :: 'p' :: ';' :: t) = ampOK t
  simp [ampOK, startsSeg]

theorem ampOK_lt_chunk (t : List Char) : ampOK ("&lt;".data ++ t) = ampOK t := by
  show ampOK ('&' :: 'l' :: 't' :: ';' :: t) = ampOK t
  simp [ampOK, startsSeg]

theorem ampOK_gt_chunk (t : List Char) : ampOK ("&gt;".data ++ t) = ampOK t := by
  show ampOK ('&' :: 'g' :: 't' :: ';' :: t) = ampOK t
  simp [ampOK, startsSeg]

theorem ampOK_escAll (v : List Char) : ampOK (escAll v) = true := by
  induction v with
  | nil => simp [ampOK, escAll]
  | cons c cs ih =>
    rw [show escAll (c :: cs) = escChar c ++ escAll cs from rfl]
    unfold escChar
    split
    · rw [ampOK_amp_chunk]; exact ih
    · split
      · rw [ampOK_lt_chunk]; exact ih
      · split
        · rw [ampOK_gt_chunk]; exact ih
        · next h1 h2 h3 =>
          rw [show ([c] ++ escAll cs) = c :: escAll cs from rfl]
          rw [show ampOK (c :: escAll cs)
              = ((if c = '&' then
                    startsSeg "amp;".data (escAll cs) || startsSeg "lt;".data (escAll cs)
                      || startsSeg "gt;".data (escAll cs)
                  else true) && ampOK (escAll cs)) from rfl]
          rw [if_neg h1, ih]
          rfl

theorem startsSeg_cons_ne {p c : Char} {ps cs : List Char} (h : p ≠ c) :
    startsSeg (p :: ps) (c :: cs) = false := by
  show (if p = c then startsSeg ps cs else false) = false
  rw [if_neg h]

theorem replaceAll_skip (t p rep : List Char) :
    ∀ a : List Char, '{' ∉ a →
      replaceAll (a ++ t) ('{' :: p) rep = a ++ replaceAll t ('{' :: p) rep := by
  intro a
  induction a with
  | nil => intro _; simp
  | cons c a2 ih =>
    intro ha
    have hc : c ≠ '{' := fun h => ha (by simp [h])
    rw [List.cons_append,
      replaceAll_cons_neg (a2 ++ t) ('{' :: p) rep c
        (fun hcond => by
          rw [startsSeg_cons_ne (fun h => hc h.symm)] at hcond
          exact absurd hcond.2 (by simp)),
      ih (fun h => ha (by simp [h])), List.cons_append]

theorem containsSeg_skip (t p : List Char) :
    ∀ a : List Char, '{' ∉ a →
      containsSeg ('{' :: p) (a ++ t) = containsSeg ('{' :: p) t := by
  intro a
  induction a with
  | nil => intro _; simp
  | cons c a2 ih =>
    intro ha
    have hc : c ≠ '{' := fun h => ha (by simp [h])
    rw [List.cons_append]
    rw [show containsSeg ('{' :: p) (c :: (a2 ++ t))
        = (startsSeg ('{' :: p) (c :: (a2 ++ t)) || containsSeg ('{' :: p) (a2 ++ t)) from rfl]
    rw [startsSeg_cons_ne (fun h => hc h.symm), ih (fun h => ha (by simp [h]))]
    simp

theorem startsSeg_names_ne (t : List Char) :
    ∀ k : List Char, '}' ∉ k → ∀ n : List Char, '}' ∉ n → k ≠ n →
      startsSeg (k ++ ['}']) (n ++ ('}' :: t)) = false := by
  intro k
  induction k with
  | nil =>
    intro _ n hn hne
    cases n with
    | nil => exact absurd rfl hne
    | cons m n2 =>
      rw [List.nil_append, List.cons_append]
      exact startsSeg_cons_ne (fun h => hn (by simp [← h]))
  | cons d k2 ih =>
    intro hk n hn hne
    cases n with
    | nil =>
      rw [List.cons_append, List.nil_append]
      exact startsSeg_cons_ne (fun h => hk (by simp [h]))
    | cons m n2 =>
      by_cases hdm : d = m
      · subst hdm
        rw [List.cons_append, List.cons_append]
        rw [show startsSeg (d :: (k2 ++ ['}'])) (d :: (n2 ++ ('}' :: t)))
            = startsSeg (k2 ++ ['}']) (n2 ++ ('}' :: t)) from by
          show (if d = d then startsSeg (k2 ++ ['}']) (n2 ++ ('}' :: t)) else false)
              = startsSeg (k2 ++ ['}']) (n2 ++ ('}' :: t))
          rw [if_pos rfl]]
        exact ih (fun h => hk (by simp [h])) n2 (fun h => hn (by simp [h]))
          (fun h => hne (by rw [h]))
      · rw [List.cons_append, List.cons_append]
        exact startsSeg_cons_ne hdm

theorem startsSeg_phLit_ne {k n : List Char} (t : List Char)
    (hk : '}' ∉ k) (hn : '}' ∉ n) (hne : k ≠ n) :
    startsSeg (phLit k) (phLit n ++ t) = false := by
  rw [show phLit n ++ t = '{' :: ((n ++ ['}']) ++ t) from by simp [phLit]]
  rw [show startsSeg (phLit k) ('{' :: ((n ++ ['}']) ++ t))
      = startsSeg (k ++ ['}']) ((n ++ ['}']) ++ t) from by
    show (if '{' = '{' then startsSeg (k ++ ['}']) ((n ++ ['}']) ++ t) else false)
        = startsSeg (k ++ ['}']) ((n ++ ['}']) ++ t)
    rw [if_pos rfl]]
  rw [List.append_assoc]
  exact startsSeg_names_ne t k hk n hn hne

theorem replaceAll_at_match (pat t rep : List Char) (hp : pat ≠ []) :
    replaceAll (pat ++ t) pat rep = rep ++ replaceAll t pat rep := by
  cases pat with
  | nil => exact absurd rfl hp
  | cons p ps =>
    rw [List.cons_append,
      replaceAll_cons_pos (ps ++ t) (p :: ps) rep p (by simp)
        (by rw [← List.cons_append]; exact startsSeg_self_append (p :: ps) t)]
    congr 1
    rw [← List.cons_append, List.drop_left]

theorem segsOK_cons {sg : Seg} {rest : List Seg} :
    segsOK (sg :: rest) = true ↔ segOK sg = true ∧ segsOK rest = true := by
  simp [segsOK]

theorem segOK_ph_iff {n : List Char} :
    segOK (Seg.ph n) = true ↔ n ≠ [] ∧ braceFree n = true := by
  cases n with
  | nil => simp [segOK, braceFree]
  | cons c cs => simp [segOK]

theorem varOK_iff {kv : List Char × List Char} :
    varOK kv = true ↔ kv.1 ≠ [] ∧ regexSafeKey kv.1 = true
      ∧ braceFree kv.2 = true ∧ dollarFree kv.2 = true := by
  obtain ⟨k, v⟩ := kv
  cases k with
  | nil => simp [varOK]
  | cons c cs => simp [varOK, and_assoc]

theorem braceFree_of_regexSafe {k : List Char} (h : regexSafeKey k = true) :
    braceFree k = true := by
  rw [braceFree_iff]
  intro c hc
  have h2 : regexSafeChar c = true := by
    simp only [regexSafeKey, List.all_eq_true] at h
    exact h c hc
  simp only [regexSafeChar, Bool.not_eq_true'] at h2
  rw [decide_eq_false_iff_not] at h2
  constructor
  · intro he
    subst he
    exact h2 (by decide)
  · intro he
    subst he
    exact h2 (by decide)

theorem dollar_not_mem_of_regexSafe {k : List Char} (h : regexSafeKey k = true) :
    '$' ∉ k := by
  intro hm
  simp only [regexSafeKey, List.all_eq_true] at h
  have h2 := h '$' hm
  rw [show regexSafeChar '$' = false from by decide] at h2
  cases h2

theorem dollar_not_mem_escAll {v : List Char} (h : '$' ∉ v) : '$' ∉ escAll v := by
  induction v with
  | nil => simp [escAll]
  | cons c cs ih =>
    have hc : c ≠ '$' := fun he => h (by simp [he])
    have htail : '$' ∉ cs := fun hm => h (by simp [hm])
    rw [show escAll (c :: cs) = escChar c ++ escAll cs from rfl]
    simp only [List.mem_append, not_or]
    refine ⟨?_, ih htail⟩
    unfold escChar
    split
    · decide
    · split
      · decide
      · split
        · decide
        · simp only [List.mem_singleton]
          exact fun he => hc he.symm

theorem dollar_not_mem_safeValue {kv : List Char × List Char}
    (h : varOK kv = true) : '$' ∉ safeValue kv.1 kv.2 := by
  have h1 := varOK_iff.mp h
  unfold safeValue
  split
  · intro hm
    simp only [phLit, List.mem_cons, List.mem_append, List.mem_singleton] at hm
    rcases hm with h2 | h2 | h2
    · exact absurd h2 (by decide)
    · exact dollar_not_mem_of_regexSafe h1.2.1 h2
    · exact absurd h2 (by decide)
  · rw [escapeHtml_eq_escAll]
    refine dollar_not_mem_escAll ?_
    have h3 := h1.2.2.2
    simpa [dollarFree] using h3

theorem replaceAll_render (k rep : List Char) (hk : k ≠ []) (hkb : braceFree k = true) :
    ∀ segs : List Seg, segsOK segs = true →
      replaceAll (render segs) (phLit k) rep = render (segs.map (substSeg k rep)) := by
  intro segs
  induction segs with
  | nil => intro _; simp [render, replaceAll]
  | cons sg rest ih =>
    intro hok
    obtain ⟨hsg, hrest⟩ := segsOK_cons.mp hok
    cases sg with
    | lit s =>
      rw [show render (Seg.lit s :: rest) = s ++ render rest from rfl]
      rw [show phLit k = '{' :: (k ++ ['}']) from rfl]
      rw [replaceAll_skip (render rest) (k ++ ['}']) rep s
        (open_not_mem_of_braceFree (by simpa [segOK] using hsg))]
      rw [show ('{' :: (k ++ ['}'])) = phLit k from rfl, ih hrest]
      rw [List.map_cons, show substSeg k rep (Seg.lit s) = Seg.lit s from by
        unfold substSeg; rw [if_neg (by simp)]]
      rfl
    | ph n =>
      have hn := segOK_ph_iff.mp hsg
      by_cases hkn : n = k
      · subst hkn
        rw [show render (Seg.ph n :: rest) = phLit n ++ render rest from rfl,
          replaceAll_at_match (phLit n) (render rest) rep (by simp [phLit]),
          ih hrest, List.map_cons,
          show substSeg n rep (Seg.ph n) = Seg.lit rep from by
            unfold substSeg; rw [if_pos rfl]]
        rfl
      · rw [show render (Seg.ph n :: rest) = phLit n ++ render rest from rfl]
        have hopen : '{' ∉ n ++ ['}'] := by
          intro hmem
          rcases List.mem_append.mp hmem with h | h
          · exact open_not_mem_of_braceFree hn.2 h
          · rw [List.mem_singleton] at h
            exact absurd h (by decide)
        have hf : startsSeg (phLit k) (phLit n ++ render rest) = false :=
          startsSeg_phLit_ne (render rest) (close_not_mem_of_braceFree hkb)
            (close_not_mem_of_braceFree hn.2) (fun h => hkn h.symm)
        rw [show phLit n ++ render rest = '{' :: ((n ++ ['}']) ++ render rest) from by
          simp [phLit]]
        rw [replaceAll_cons_neg ((n ++ ['}']) ++ render rest) (phLit k) rep '{'
          (fun hcond => by
            rw [show ('{' :: ((n ++ ['}']) ++ render rest)) = phLit n ++ render rest from by
              simp [phLit]] at hcond
            exact absurd hcond.2 (by simp [hf]))]
        rw [show phLit k = '{' :: (k ++ ['}']) from rfl]
        rw [replaceAll_skip (render rest) (k ++ ['}']) rep (n ++ ['}']) hopen]
        rw [show ('{' :: (k ++ ['}'])) = phLit k from rfl, ih hrest]
        rw [List.map_cons, show substSeg k rep (Seg.ph n) = Seg.ph n from by
          unfold substSeg; rw [if_neg (by simp [hkn])]]
        rw [show render (Seg.ph n :: (rest.map (substSeg k rep)))
            = phLit n ++ render (rest.map (substSeg k rep)) from rfl]
        simp [phLit]

theorem applyVars_cons (kv : List Char × List Char) (vars : List (List Char × List Char))
    (segs : List Seg) :
    applyVars (kv :: vars) segs = applyVars vars (segs.map (passSeg kv)) := rfl

theorem varsOK_cons {kv : List Char × List Char} {vars : List (List Char × List Char)} :
    varsOK (kv :: vars) = true ↔ varOK kv = true ∧ varsOK vars = true := by
  simp [varsOK]

theorem segsOK_map_passSeg {segs : List Seg} (kv : List Char × List Char)
    (hsegs : segsOK segs = true) (hkv : varOK kv = true) :
    segsOK (segs.map (passSeg kv)) = true := by
  simp only [segsOK, List.all_eq_true] at hsegs ⊢
  intro sg hsg
  simp only [List.mem_map] at hsg
  obtain ⟨sg0, hsg0, rfl⟩ := hsg
  unfold passSeg substSeg
  split
  · exact hsegs sg0 hsg0
  · split
    · show segOK (Seg.lit (escapeHtml kv.2)) = true
      show braceFree (escapeHtml kv.2) = true
      rw [escapeHtml_eq_escAll]
      exact braceFree_escAll (varOK_iff.mp hkv).2.2.1
    · exact hsegs sg0 hsg0

theorem replaceVariables_render :
    ∀ (vars : List (List Char × List Char)) (segs : List Seg),
      segsOK segs = true → varsOK vars = true →
      replaceVariables (render segs) vars = render (applyVars vars segs) := by
  intro vars
  induction vars with
  | nil => intro segs _ _; rfl
  | cons kv rest ih =>
    intro segs hsegs hvars
    obtain ⟨hkv, hrest⟩ := varsOK_cons.mp hvars
    rw [show replaceVariables (render segs) (kv :: rest)
        = replaceVariables (replaceAllJS (render segs) (phLit kv.1) (safeValue kv.1 kv.2)) rest
        from rfl]
    rw [applyVars_cons]
    rw [replaceAllJS_eq_replaceAll (dollar_not_mem_safeValue hkv)]
    have hstep : replaceAll (render segs) (phLit kv.1) (safeValue kv.1 kv.2)
        = render (segs.map (passSeg kv)) := by
      by_cases hv : kv.2.isEmpty = true
      · rw [show safeValue kv.1 kv.2 = phLit kv.1 from by unfold safeValue; rw [if_pos hv]]
        rw [replaceAll_self]
        rw [show segs.map (passSeg kv) = segs from by
          have hid : ∀ sg ∈ segs, passSeg kv sg = sg := by
            intro sg _; unfold passSeg; rw [if_pos hv]
          rw [List.map_congr_left hid]
          simp]
      · rw [show safeValue kv.1 kv.2 = escapeHtml kv.2 from by unfold safeValue; rw [if_neg hv]]
        have h1 := varOK_iff.mp hkv
        rw [replaceAll_render kv.1 (escapeHtml kv.2) h1.1
          (braceFree_of_regexSafe h1.2.1) segs hsegs]
        congr 1
        exact (List.map_congr_left fun sg _ => by unfold passSeg; rw [if_neg hv]).symm
    rw [hstep]
    exact ih (segs.map (passSeg kv)) (segsOK_map_passSeg kv hsegs hkv) hrest

theorem segsOK_applyVars :
    ∀ (vars : List (List Char × List Char)) (segs : List Seg),
      segsOK segs = true → varsOK vars = true → segsOK (applyVars vars segs) = true := by
  intro vars
  induction vars with
  | nil => intro segs h _; exact h
  | cons kv rest ih =>
    intro segs hsegs hvars
    obtain ⟨hkv, hrest⟩ := varsOK_cons.mp hvars
    rw [applyVars_cons]
    exact ih _ (segsOK_map_passSeg kv hsegs hkv) hrest

theorem passSeg_ph {kv : List Char × List Char} {m : List Char} {sg : Seg}
    (h : passSeg kv sg = Seg.ph m) : sg = Seg.ph m := by
  unfold passSeg substSeg at h
  split at h
  · exact h
  · split at h
    · cases h
    · exact h

theorem ph_mem_of_mem_applyVars :
    ∀ (vars : List (List Char × List Char)) (segs : List Seg) (m : List Char),
      Seg.ph m ∈ applyVars vars segs → Seg.ph m ∈ segs := by
  intro vars
  induction vars with
  | nil => intro segs m h; exact h
  | cons kv rest ih =>
    intro segs m h
    rw [applyVars_cons] at h
    have h2 := ih _ m h
    simp only [List.mem_map] at h2
    obtain ⟨sg, hsg, heq⟩ := h2
    exact (passSeg_ph heq) ▸ hsg

theorem ph_not_mem_applyVars :
    ∀ (vars : List (List Char × List Char)) (segs : List Seg) (k v : List Char),
      (k, v) ∈ vars → v ≠ [] → Seg.ph k ∉ applyVars vars segs := by
  intro vars
  induction vars with
  | nil => intro segs k v h; simp at h
  | cons kv rest ih =>
    intro segs k v hmem hv hcontra
    rw [applyVars_cons] at hcontra
    rcases List.mem_cons.mp hmem with heq | hmem2
    · have h2 := ph_mem_of_mem_applyVars rest _ k hcontra
      simp only [List.mem_map] at h2
      obtain ⟨sg, _, heq2⟩ := h2
      rw [← heq] at heq2
      revert heq2
      unfold passSeg substSeg
      rw [if_neg (by simpa using hv)]
      split
      · intro h3; cases h3
      · next hne => intro h3; exact hne h3
    · exact ih _ k v hmem2 hv hcontra

theorem ph_mem_applyVars_of_unfilled :
    ∀ (vars : List (List Char × List Char)) (segs : List Seg) (m : List Char),
      Seg.ph m ∈ segs → (∀ kv ∈ vars, kv.1 = m → kv.2 = []) →
      Seg.ph m ∈ applyVars vars segs := by
  intro vars
  induction vars with
  | nil => intro segs m h _; exact h
  | cons kv rest ih =>
    intro segs m hm hall
    rw [applyVars_cons]
    refine ih _ m ?_ (fun x hx => hall x (by simp [hx]))
    have himg : passSeg kv (Seg.ph m) = Seg.ph m := by
      unfold passSeg substSeg
      split
      · rfl
      · next hvne =>
        split
        · next hphm =>
          have hk : m = kv.1 := by injection hphm
          have hnil : kv.2 = [] := hall kv (by simp) hk.symm
          rw [hnil] at hvne
          exact absurd rfl hvne
        · rfl
    rw [← himg]
    exact List.mem_map_of_mem _ hm

theorem containsSeg_render :
    ∀ (segs : List Seg) (k : List Char), segsOK segs = true → k ≠ [] →
      braceFree k = true →
      (containsSeg (phLit k) (render segs) = true ↔ Seg.ph k ∈ segs) := by
  intro segs
  induction segs with
  | nil =>
    intro k _ _ _
    constructor
    · intro h
      rw [show containsSeg (phLit k) (render []) = false from rfl] at h
      cases h
    · intro h; simp at h
  | cons sg rest ih =>
    intro k hok hk hkb
    obtain ⟨hsg, hrest⟩ := segsOK_cons.mp hok
    cases sg with
    | lit s =>
      rw [show render (Seg.lit s :: rest) = s ++ render rest from rfl]
      rw [show phLit k = '{' :: (k ++ ['}']) from rfl]
      rw [containsSeg_skip (render rest) (k ++ ['}']) s
        (open_not_mem_of_braceFree (by simpa [segOK] using hsg))]
      rw [show ('{' :: (k ++ ['}'])) = phLit k from rfl, ih k hrest hk hkb]
      simp
    | ph n =>
      have hn := segOK_ph_iff.mp hsg
      by_cases hkn : n = k
      · subst hkn
        constructor
        · intro _; simp
        · intro _
          rw [show render (Seg.ph n :: rest) = phLit n ++ render rest from rfl]
          exact containsSeg_of_startsSeg (startsSeg_self_append _ _)
      · rw [show render (Seg.ph n :: rest) = phLit n ++ render rest from rfl]
        have hopen : '{' ∉ n ++ ['}'] := by
          intro hmem
          rcases List.mem_append.mp hmem with h | h
          · exact open_not_mem_of_braceFree hn.2 h
          · rw [List.mem_singleton] at h
            exact absurd h (by decide)
        have hf : startsSeg (phLit k) (phLit n ++ render rest) = false :=
          startsSeg_phLit_ne (render rest) (close_not_mem_of_braceFree hkb)
            (close_not_mem_of_braceFree hn.2) (fun h => hkn h.symm)
        rw [show phLit n ++ render rest = '{' :: ((n ++ ['}']) ++ render rest) from by
          simp [phLit]]
        rw [show containsSeg (phLit k) ('{' :: ((n ++ ['}']) ++ render rest))
            = (startsSeg (phLit k) ('{' :: ((n ++ ['}']) ++ render rest))
               || containsSeg (phLit k) ((n ++ ['}']) ++ render rest)) from rfl]
        rw [show startsSeg (phLit k) ('{' :: ((n ++ ['}']) ++ render rest)) = false from by
          rw [show ('{' :: ((n ++ ['}']) ++ render rest)) = phLit n ++ render rest from by
            simp [phLit]]
          exact hf]
        rw [show phLit k = '{' :: (k ++ ['}']) from rfl]
        rw [containsSeg_skip (render rest) (k ++ ['}']) (n ++ ['}']) hopen]
        rw [show ('{' :: (k ++ ['}'])) = phLit k from rfl, Bool.false_or,
          ih k hrest hk hkb]
        constructor
        · intro h; simp [h]
        · intro h
          rcases List.mem_cons.mp h with h2 | h2
          · injection h2 with h3
            exact absurd h3.symm hkn
          · exact h2

theorem mem_dedupAux {α : Type} [DecidableEq α] :
    ∀ (l seen : List α) (a : α), a ∈ dedupAux seen l ↔ a ∈ l ∧ a ∉ seen := by
  intro l
  induction l with
  | nil => intro seen a; simp [dedupAux]
  | cons x xs ih =>
    intro seen a
    unfold dedupAux
    split
    · next hx =>
      rw [ih]
      constructor
      · exact fun h => ⟨by simp [h.1], h.2⟩
      · rintro ⟨h1, h2⟩
        rcases List.mem_cons.mp h1 with rfl | h3
        · exact absurd hx h2
        · exact ⟨h3, h2⟩
    · next hx =>
      rw [List.mem_cons, ih]
      constructor
      · rintro (rfl | ⟨h1, h2⟩)
        · exact ⟨by simp, hx⟩
        · exact ⟨by simp [h1], fun hm => h2 (by simp [hm])⟩
      · rintro ⟨h1, h2⟩
        by_cases hax : a = x
        · exact Or.inl hax
        · rcases List.mem_cons.mp h1 with rfl | h3
          · exact absurd rfl hax
          · exact Or.inr ⟨h3, fun hm => (List.mem_cons.mp hm).elim hax h2⟩

theorem dedupAux_sublist {α : Type} [DecidableEq α] :
    ∀ (l seen : List α), List.Sublist (dedupAux seen l) l := by
  intro l
  induction l with
  | nil => intro seen; simp [dedupAux]
  | cons x xs ih =>
    intro seen
    unfold dedupAux
    split
    · exact List.Sublist.cons x (ih seen)
    · exact List.Sublist.cons₂ x (ih (x :: seen))

theorem dedupAux_nodup {α : Type} [DecidableEq α] :
    ∀ (l seen : List α), (dedupAux seen l).Nodup := by
  intro l
  induction l with
  | nil => intro seen; simp [dedupAux]
  | cons x xs ih =>
    intro seen
    unfold dedupAux
    split
    · exact ih seen
    · refine List.nodup_cons.mpr ⟨?_, ih (x :: seen)⟩
      intro hmem
      exact ((mem_dedupAux xs (x :: seen) x).mp hmem).2 (by simp)

theorem firstIdx_cons {α : Type} [DecidableEq α] (a x : α) (xs : List α) :
    firstIdx a (x :: xs) = if x = a then 0 else firstIdx a xs + 1 := rfl

theorem dedupAux_pairwise {α : Type} [DecidableEq α] :
    ∀ (l seen : List α),
      (dedupAux seen l).Pairwise (fun a b => firstIdx a l < firstIdx b l) := by
  intro l
  induction l with
  | nil => intro seen; simp [dedupAux]
  | cons x xs ih =>
    intro seen
    unfold dedupAux
    split
    · next hx =>
      refine List.Pairwise.imp_of_mem ?_ (ih seen)
      intro a b ha hb hlt
      have hax : a ≠ x := fun h => ((mem_dedupAux xs seen a).mp ha).2 (h ▸ hx)
      have hbx : b ≠ x := fun h => ((mem_dedupAux xs seen b).mp hb).2 (h ▸ hx)
      rw [firstIdx_cons a x xs, if_neg (fun h => hax h.symm)]
      rw [firstIdx_cons b x xs, if_neg (fun h => hbx h.symm)]
      omega
    · next hx =>
      refine List.pairwise_cons.mpr ⟨?_, ?_⟩
      · intro b hb
        have hbx : b ≠ x := fun h =>
          ((mem_dedupAux xs (x :: seen) b).mp hb).2 (by simp [h])
        rw [firstIdx_cons x x xs, if_pos rfl]
        rw [firstIdx_cons b x xs, if_neg (fun h => hbx h.symm)]
        omega
      · refine List.Pairwise.imp_of_mem ?_ (ih (x :: seen))
        intro a b ha hb hlt
        have hax : a ≠ x := fun h =>
          ((mem_dedupAux xs (x :: seen) a).mp ha).2 (by simp [h])
        have hbx : b ≠ x := fun h =>
          ((mem_dedupAux xs (x :: seen) b).mp hb).2 (by simp [h])
        rw [firstIdx_cons a x xs, if_neg (fun h => hax h.symm)]
        rw [firstIdx_cons b x xs, if_neg (fun h => hbx h.symm)]
        omega

theorem map_dedupAux {α β : Type} [DecidableEq α] [DecidableEq β] (f : α → β) :
    ∀ (l seen : List α),
      (∀ x, (x ∈ seen ∨ x ∈ l) → ∀ y, (y ∈ seen ∨ y ∈ l) → f x = f y → x = y) →
      (dedupAux seen l).map f = dedupAux (seen.map f) (l.map f) := by
  intro l
  induction l with
  | nil => intro seen _; simp [dedupAux]
  | cons x xs ih =>
    intro seen hinj
    have hiff : x ∈ seen ↔ f x ∈ seen.map f := by
      constructor
      · exact fun h => List.mem_map_of_mem f h
      · intro h
        obtain ⟨y, hy, hyx⟩ := List.mem_map.mp h
        rw [← hinj y (Or.inl hy) x (Or.inr (by simp)) hyx]
        exact hy
    rw [show dedupAux seen (x :: xs)
        = (if x ∈ seen then dedupAux seen xs else x :: dedupAux (x :: seen) xs) from rfl]
    rw [List.map_cons]
    rw [show dedupAux (seen.map f) (f x :: xs.map f)
        = (if f x ∈ seen.map f then dedupAux (seen.map f) (xs.map f)
           else f x :: dedupAux (f x :: seen.map f) (xs.map f)) from rfl]
    by_cases hx : x ∈ seen
    · rw [if_pos hx, if_pos (hiff.mp hx)]
      exact ih seen fun a ha b hb =>
        hinj a (ha.imp id (List.mem_cons_of_mem x)) b (hb.imp id (List.mem_cons_of_mem x))
    · rw [if_neg hx, if_neg (fun h => hx (hiff.mpr h)), List.map_cons]
      have hw : ∀ x2, (x2 ∈ x :: seen ∨ x2 ∈ xs) → (x2 ∈ seen ∨ x2 ∈ x :: xs) := by
        intro x2 h
        rcases h with h | h
        · rcases List.mem_cons.mp h with rfl | h2
          · exact Or.inr (by simp)
          · exact Or.inl h2
        · exact Or.inr (by simp [h])
      rw [ih (x :: seen) (fun a ha b hb => hinj a (hw a ha) b (hw b hb)), List.map_cons]

theorem scanMatches_nil : scanMatches [] = [] := by
  rw [scanMatches]

theorem scanMatches_cons_not_open (rest : List Char) {c : Char} (hc : c ≠ '{') :
    scanMatches (c :: rest) = scanMatches rest := by
  rw [scanMatches]
  simp [hc]

theorem scanMatches_open_hit (rest : List Char)
    (h1 : rest.dropWhile (fun d => d != '}') ≠ [])
    (h2 : rest.takeWhile (fun d => d != '}') ≠ []) :
    scanMatches ('{' :: rest)
      = ('{' :: (rest.takeWhile (fun d => d != '}') ++ ['}']))
        :: scanMatches ((rest.dropWhile (fun d => d != '}')).tail) := by
  rw [scanMatches]
  simp [h1, h2]

theorem scanMatches_open_miss (rest : List Char)
    (h : ¬(rest.dropWhile (fun d => d != '}') ≠ []
        ∧ rest.takeWhile (fun d => d != '}') ≠ [])) :
    scanMatches ('{' :: rest) = scanMatches rest := by
  rw [scanMatches]
  simp only [if_pos rfl]
  rw [dif_neg h]
  simp

theorem scanMatches_shape :
    ∀ (s m : List Char), m ∈ scanMatches s →
      ∃ name, m = phLit name ∧ name ≠ [] ∧ '}' ∉ name := by
  intro s
  generalize hn : s.length = n
  induction n using Nat.strongRecOn generalizing s with
  | ind n ih =>
    cases s with
    | nil =>
      intro m hm
      rw [scanMatches_nil] at hm
      cases hm
    | cons c rest =>
      simp only [List.length_cons] at hn
      intro m hm
      by_cases hc : c = '{'
      · subst hc
        by_cases hcond : rest.dropWhile (fun d => d != '}') ≠ []
            ∧ rest.takeWhile (fun d => d != '}') ≠ []
        · rw [scanMatches_open_hit rest hcond.1 hcond.2] at hm
          rcases List.mem_cons.mp hm with rfl | h2
          · refine ⟨rest.takeWhile (fun d => d != '}'), rfl, hcond.2, ?_⟩
            intro hmem
            have := List.mem_takeWhile_imp hmem
            simp at this
          · have h4 := congrArg List.length
              (List.takeWhile_append_dropWhile (fun d => d != '}') rest)
            simp only [List.length_append] at h4
            have h5 := (rest.dropWhile (fun d => d != '}')).length_tail
            have h6 : 0 < (rest.dropWhile (fun d => d != '}')).length :=
              List.length_pos.mpr hcond.1
            exact ih _ (by omega) _ rfl m h2
        · rw [scanMatches_open_miss rest hcond] at hm
          exact ih rest.length (by omega) rest rfl m hm
      · rw [scanMatches_cons_not_open rest hc] at hm
        exact ih rest.length (by omega) rest rfl m hm

theorem innerName_phLit (n : List Char) : innerName (phLit n) = n := by
  unfold innerName phLit
  simp

theorem extractVariables_eq (c : List Char) :
    extractVariables c = dedupAux [] (scanNames c) := by
  unfold extractVariables scanNames
  rw [map_dedupAux innerName (scanMatches c) [] ?_]
  · rfl
  · intro x hx y hy hxy
    have hx2 : x ∈ scanMatches c := by
      rcases hx with h | h
      · cases h
      · exact h
    have hy2 : y ∈ scanMatches c := by
      rcases hy with h | h
      · cases h
      · exact h
    obtain ⟨nx, rfl, _, _⟩ := scanMatches_shape c x hx2
    obtain ⟨ny, rfl, _, _⟩ := scanMatches_shape c y hy2
    rw [innerName_phLit, innerName_phLit] at hxy
    rw [hxy]

theorem scanMatches_no_open :
    ∀ s : List Char, '{' ∉ s → scanMatches s = [] := by
  intro s
  induction s with
  | nil => intro _; exact scanMatches_nil
  | cons c rest ih =>
    intro h
    rw [scanMatches_cons_not_open rest (fun hc => h (by simp [hc]))]
    exact ih (fun hm => h (by simp [hm]))

theorem scanMatches_no_close :
    ∀ s : List Char, '}' ∉ s → scanMatches s = [] := by
  intro s
  induction s with
  | nil => intro _; exact scanMatches_nil
  | cons c rest ih =>
    intro h
    have hrest : '}' ∉ rest := fun hm => h (by simp [hm])
    by_cases hc : c = '{'
    · subst hc
      have hdrop : rest.dropWhile (fun d => d != '}') = [] := by
        rw [List.dropWhile_eq_nil_iff]
        intro x hx
        have hne : x ≠ '}' := fun he => hrest (he ▸ hx)
        simp [hne]
      rw [scanMatches_open_miss rest (by simp [hdrop])]
      exact ih hrest
    · rw [scanMatches_cons_not_open rest hc]
      exact ih hrest

theorem hasHtmlTag_tail_or {c : Char} {rest : List Char} (h : hasHtmlTag rest = true) :
    hasHtmlTag (c :: rest) = true := by
  cases rest with
  | nil => cases h
  | cons d rest2 =>
    rw [show hasHtmlTag (c :: d :: rest2)
        = ((if c = '<' ∧ isTagLetter d = true then decide ('>' ∈ rest2) else false)
           || hasHtmlTag (d :: rest2)) from rfl, h]
    simp

theorem hasHtmlTag_head {d : Char} {rest2 : List Char} (hd : isTagLetter d = true)
    (hgt : '>' ∈ rest2) : hasHtmlTag ('<' :: d :: rest2) = true := by
  rw [show hasHtmlTag ('<' :: d :: rest2)
      = ((if ('<' : Char) = '<' ∧ isTagLetter d = true then decide ('>' ∈ rest2) else false)
         || hasHtmlTag (d :: rest2)) from rfl]
  rw [if_pos ⟨rfl, hd⟩]
  simp [hgt]

theorem hasHtmlTag_br_append :
    ∀ (a t : List Char), hasHtmlTag (a ++ '<' :: 'b' :: 'r' :: '>' :: t) = true := by
  intro a
  induction a with
  | nil =>
    intro t
    exact hasHtmlTag_head (by decide) (by simp)
  | cons c a2 ih =>
    intro t
    rw [List.cons_append]
    exact hasHtmlTag_tail_or (ih t)

theorem normalizeContent_of_tag {s : List Char} (hs : hasHtmlTag s = true) :
    normalizeContent s = s := by
  cases s with
  | nil => rfl
  | cons c cs =>
    unfold normalizeContent
    rw [if_neg (by simp), if_neg (by simp [hs])]

theorem normalizeContent_no_newline {s : List Char} (hnl : '\n' ∉ s) :
    normalizeContent s = s := by
  cases s with
  | nil => rfl
  | cons c cs =>
    unfold normalizeContent
    rw [if_neg (by simp), if_neg (fun hcond => hnl hcond.2)]

theorem normalizeContent_convert {s : List Char} (htag : hasHtmlTag s = false)
    (hnl : '\n' ∈ s) :
    normalizeContent s = subChar '\n' "<br>".data s := by
  cases s with
  | nil => simp at hnl
  | cons c cs =>
    unfold normalizeContent
    rw [if_neg (by simp), if_pos ⟨htag, hnl⟩]
    exact replaceAll_single _ '\n' _

/-- Claim C10: `normalizeLegacyContent` is idempotent — for every content
string a second application returns the first result unchanged: once
newlines have been converted the result contains a `<br>` tag and is
detected as markup, and every other branch returns its input unchanged, so
the migration is safe to re-run on every load. -/
theorem c10_normalize_idempotent (s : List Char) :
    normalizeContent (normalizeContent s) = normalizeContent s := by
  cases hcase : hasHtmlTag s with
  | true => rw [normalizeContent_of_tag hcase, normalizeContent_of_tag hcase]
  | false =>
    by_cases hnl : '\n' ∈ s
    · rw [normalizeContent_convert hcase hnl]
      obtain ⟨s1, s2, hsplit⟩ := List.append_of_mem hnl
      have hr : subChar '\n' "<br>".data s
          = subChar '\n' "<br>".data s1 ++ '<' :: 'b' :: 'r' :: '>'
            :: subChar '\n' "<br>".data s2 := by
        rw [hsplit, subChar_append]
        rw [show subChar '\n' "<br>".data ('\n' :: s2)
            = (if '\n' = '\n' then "<br>".data else ['\n']) ++ subChar '\n' "<br>".data s2
            from rfl]
        rw [if_pos rfl]
        rfl
      apply normalizeContent_of_tag
      rw [hr]
      exact hasHtmlTag_br_append _ _
    · rw [normalizeContent_no_newline hnl, normalizeContent_no_newline hnl]

theorem angle_not_mem_plainTextF :
    ∀ ns : List DomNode, textAngleFree ns = true →
      '<' ∉ plainTextF ns ∧ '>' ∉ plainTextF ns := by
  intro ns
  induction ns using plainTextF.induct with
  | case1 => intro _; simp [plainTextF]
  | case2 s rest ih =>
    intro h
    simp only [textAngleFree, Bool.and_eq_true, decide_eq_true_eq] at h
    have h2 := ih h.2
    simp only [plainTextF, List.mem_append, not_or]
    exact ⟨⟨h.1.1, h2.1⟩, ⟨h.1.2, h2.2⟩⟩
  | case3 tag kids rest ih1 ih2 =>
    intro h
    simp only [textAngleFree, Bool.and_eq_true] at h
    have h1 := ih1 h.1
    have h2 := ih2 h.2
    simp only [plainTextF, List.mem_append, not_or]
    constructor
    · refine ⟨?_, h2.1⟩
      split
      · decide
      · simp only [List.mem_append, not_or]
        refine ⟨h1.1, ?_⟩
        split
        · decide
        · simp
    · refine ⟨?_, h2.2⟩
      split
      · decide
      · simp only [List.mem_append, not_or]
        refine ⟨h1.2, ?_⟩
        split
        · decide
        · simp

theorem textOnly_sublist_plainTextF :
    ∀ ns : List DomNode, brChildless ns = true →
      List.Sublist (textOnly ns) (plainTextF ns) := by
  intro ns
  induction ns using plainTextF.induct with
  | case1 => intro _; simp [textOnly, plainTextF]
  | case2 s rest ih =>
    intro h
    simp only [brChildless] at h
    simp only [textOnly, plainTextF]
    exact (ih h).append_left s
  | case3 tag kids rest ih1 ih2 =>
    intro h
    simp only [brChildless, Bool.and_eq_true] at h
    have hkids := ih1 h.1.2
    have hrest := ih2 h.2
    simp only [textOnly, plainTextF]
    split
    · next hbr =>
      have hke : kids.isEmpty = true := by
        have h3 := h.1.1
        rw [if_pos hbr] at h3
        exact h3
      have hknil : kids = [] := by
        cases kids with
        | nil => rfl
        | cons a b => cases hke
      subst hknil
      simp only [textOnly, List.nil_append]
      exact hrest.cons '\n'
    · exact List.Sublist.append (hkids.trans (List.sublist_append_left _ _)) hrest

theorem replaceVariables_id_of_no_close :
    ∀ (vars : List (List Char × List Char)) (s : List Char), '}' ∉ s →
      replaceVariables s vars = s := by
  intro vars
  induction vars with
  | nil => intro s _; rfl
  | cons kv rest ih =>
    intro s hs
    rw [show replaceVariables s (kv :: rest)
        = replaceVariables (replaceAllJS s (phLit kv.1) (safeValue kv.1 kv.2)) rest from rfl]
    rw [replaceAllJS_of_not_contains _ s
      (@not_containsSeg_of_not_mem '}' (phLit kv.1) s (by simp [phLit]) hs)]
    exact ih s hs

theorem replaceVariables_id_of_no_open :
    ∀ (vars : List (List Char × List Char)) (s : List Char), '{' ∉ s →
      replaceVariables s vars = s := by
  intro vars
  induction vars with
  | nil => intro s _; rfl
  | cons kv rest ih =>
    intro s hs
    rw [show replaceVariables s (kv :: rest)
        = replaceVariables (replaceAllJS s (phLit kv.1) (safeValue kv.1 kv.2)) rest from rfl]
    rw [replaceAllJS_of_not_contains _ s
      (@not_containsSeg_of_not_mem '{' (phLit kv.1) s (by simp [phLit]) hs)]
    exact ih s hs

/-- Claim C1, counterexample: the claim fails on the code as stated.  For
content `{b}` and the values map with entries `a ↦ x` then `b ↦ {a}` (the
enumeration order; both keys regex-safe and both values dollar-free, so
the real replace behaves exactly literally here), the key `a` has the
non-empty value `x`, yet the substituted output is exactly the literal
`{a}`: the pass for `b` inserts its value verbatim (braces are not
escaped) and so re-introduces the placeholder literal of the
already-processed key `a`. -/
theorem c1_counterexample :
    replaceVariables ['{', 'b', '}'] [(['a'], ['x']), (['b'], ['{', 'a', '}'])]
        = ['{', 'a', '}']
    ∧ containsSeg (phLit ['a'])
        (replaceVariables ['{', 'b', '}'] [(['a'], ['x']), (['b'], ['{', 'a', '}'])])
      = true := by
  have h : replaceVariables ['{', 'b', '}'] [(['a'], ['x']), (['b'], ['{', 'a', '}'])]
      = ['{', 'a', '}'] := by
    simp [replaceVariables, replaceAllJS_eq_replaceAll, phLit, safeValue, escapeHtml,
      replaceAll, startsSeg]
  refine ⟨h, ?_⟩
  rw [h]
  decide

/-- Claim C1 (amended): provided the content is a well-formed alternation
of brace-free literal segments and placeholders with non-empty brace-free
names, and the map has non-empty regex-safe keys (plain placeholder names
with no regex syntax character, so the constructed pattern matches exactly
the literal `{key}`) and values free of braces and of dollar characters
(so the inserted replacement is left untouched by the `$`-sequence
handling of `String.replace`), the substituted output contains no `{name}`
literal for any key whose value is non-empty, and still contains the
`{name}` literal for every placeholder of the content that is absent from
the map or mapped only to the empty string. -/
theorem c1_substitution_wellformed (segs : List Seg)
    (vars : List (List Char × List Char))
    (hsegs : segsOK segs = true) (hvars : varsOK vars = true) :
    (∀ kv ∈ vars, kv.2 ≠ [] →
      containsSeg (phLit kv.1) (replaceVariables (render segs) vars) = false)
    ∧ (∀ m : List Char, Seg.ph m ∈ segs →
        (∀ kv ∈ vars, kv.1 = m → kv.2 = []) →
        containsSeg (phLit m) (replaceVariables (render segs) vars) = true) := by
  rw [replaceVariables_render vars segs hsegs hvars]
  constructor
  · intro kv hkv hv
    obtain ⟨k, v⟩ := kv
    have hok := varOK_iff.mp (by
      simp only [varsOK, List.all_eq_true] at hvars
      exact hvars _ hkv)
    have hiff := containsSeg_render (applyVars vars segs) k
      (segsOK_applyVars vars segs hsegs hvars) hok.1 (braceFree_of_regexSafe hok.2.1)
    have hnot : Seg.ph k ∉ applyVars vars segs :=
      ph_not_mem_applyVars vars segs k v hkv hv
    rw [Bool.eq_false_iff]
    intro htrue
    exact hnot (hiff.mp htrue)
  · intro m hm hall
    have hmem := ph_mem_applyVars_of_unfilled vars segs m hm hall
    have hOK : segOK (Seg.ph m) = true := by
      simp only [segsOK, List.all_eq_true] at hsegs
      exact hsegs _ hm
    have hmOK := segOK_ph_iff.mp hOK
    exact (containsSeg_render (applyVars vars segs) m
      (segsOK_applyVars vars segs hsegs hvars) hmOK.1 hmOK.2).mpr hmem

/-- Claim C1, witness: the spec's own scenario — content
`Hello {name}, your due date is {due_date}.` with only `name ↦ Anna`
filled — instantiates the amended claim: the `{name}` literal is gone from
the output and the `{due_date}` literal remains. -/
theorem c1_witness :
    containsSeg (phLit "name".data)
      (replaceVariables
        (render [Seg.lit "Hello ".data, Seg.ph "name".data,
          Seg.lit ", your due date is ".data, Seg.ph "due_date".data, Seg.lit ".".data])
        [("name".data, "Anna".data)]) = false
    ∧ containsSeg (phLit "due_date".data)
      (replaceVariables
        (render [Seg.lit "Hello ".data, Seg.ph "name".data,
          Seg.lit ", your due date is ".data, Seg.ph "due_date".data, Seg.lit ".".data])
        [("name".data, "Anna".data)]) = true := by
  have h := c1_substitution_wellformed
    [Seg.lit "Hello ".data, Seg.ph "name".data,
      Seg.lit ", your due date is ".data, Seg.ph "due_date".data, Seg.lit ".".data]
    [("name".data, "Anna".data)] (by decide) (by decide)
  exact ⟨h.1 ("name".data, "Anna".data) (by decide) (by decide),
    h.2 "due_date".data (by decide) (by decide)⟩

/-- Claim C2: every substituted value is escaped for `&`, `<`, `>`
(ampersand first) before insertion: for any non-empty value the inserted
text equals the character-wise escape of the value, contains no raw `<` or
`>`, and each of its ampersands starts one of the escape entities; and the
spec's scenario holds — substituting `x ↦ <script>` into
`<b>{x}</b> & friends` yields `<b>&lt;script&gt;</b> & friends`, the
template's own markup and literal ampersand intact. -/
theorem c2_value_escaping :
    replaceVariables ("<b>".data ++ phLit ['x'] ++ "</b> & friends".data)
        [(['x'], "<script>".data)]
      = "<b>&lt;script&gt;</b> & friends".data
    ∧ ∀ key value : List Char, value ≠ [] →
        safeValue key value = escAll value
        ∧ '<' ∉ safeValue key value
        ∧ '>' ∉ safeValue key value
        ∧ ampOK (safeValue key value) = true := by
  constructor
  · simp [replaceVariables, replaceAllJS_eq_replaceAll, phLit, safeValue, escapeHtml,
      replaceAll, startsSeg]
  · intro key value hv
    have hie : value.isEmpty = false := by
      cases value with
      | nil => exact absurd rfl hv
      | cons a b => rfl
    have hse : safeValue key value = escAll value := by
      unfold safeValue
      rw [if_neg (by simp [hie]), escapeHtml_eq_escAll]
    refine ⟨hse, ?_, ?_, ?_⟩
    · rw [hse]; exact (angle_not_mem_escAll value).1
    · rw [hse]; exact (angle_not_mem_escAll value).2
    · rw [hse]; exact ampOK_escAll value

/-- Claim C2, witness: the escaping facts instantiated at the scenario's
value `<script>`. -/
theorem c2_witness :
    safeValue ['x'] "<script>".data = escAll "<script>".data
    ∧ '<' ∉ safeValue ['x'] "<script>".data
    ∧ '>' ∉ safeValue ['x'] "<script>".data
    ∧ ampOK (safeValue ['x'] "<script>".data) = true :=
  c2_value_escaping.2 ['x'] "<script>".data (by decide)

/-- Claim C3, counterexample: with brace-free values, substitution is not
idempotent on the code.  For content `{a{aXb}b}` and the single entry
`aXb ↦ X` (a brace-free, dollar-free value and a regex-safe key, so the
real replace behaves exactly literally here), one substitution yields
`{aXb}` — the replacement of the inner span forms a new placeholder
literal — and a second substitution yields `X`. -/
theorem c3_counterexample :
    braceFree ['X'] = true ∧ dollarFree ['X'] = true ∧ regexSafeKey ['a', 'X', 'b'] = true
    ∧ replaceVariables ['{', 'a', '{', 'a', 'X', 'b', '}', 'b', '}']
        [(['a', 'X', 'b'], ['X'])] = ['{', 'a', 'X', 'b', '}']
    ∧ replaceVariables
        (replaceVariables ['{', 'a', '{', 'a', 'X', 'b', '}', 'b', '}']
          [(['a', 'X', 'b'], ['X'])])
        [(['a', 'X', 'b'], ['X'])]
      ≠ replaceVariables ['{', 'a', '{', 'a', 'X', 'b', '}', 'b', '}']
          [(['a', 'X', 'b'], ['X'])] := by
  have h1 : replaceVariables ['{', 'a', '{', 'a', 'X', 'b', '}', 'b', '}']
      [(['a', 'X', 'b'], ['X'])] = ['{', 'a', 'X', 'b', '}'] := by
    simp [replaceVariables, replaceAllJS_eq_replaceAll, phLit, safeValue, escapeHtml,
      replaceAll, startsSeg]
  have h2 : replaceVariables ['{', 'a', 'X', 'b', '}'] [(['a', 'X', 'b'], ['X'])]
      = ['X'] := by
    simp [replaceVariables, replaceAllJS_eq_replaceAll, phLit, safeValue, escapeHtml,
      replaceAll, startsSeg]
  refine ⟨by decide, by decide, by decide, h1, ?_⟩
  rw [h1, h2]
  decide

theorem applyVars_stable :
    ∀ (vars : List (List Char × List Char)) (segs : List Seg),
      (∀ kv ∈ vars, kv.2 ≠ [] → Seg.ph kv.1 ∉ segs) →
      applyVars vars segs = segs := by
  intro vars
  induction vars with
  | nil => intro segs _; rfl
  | cons kv rest ih =>
    intro segs h
    rw [applyVars_cons]
    have hmap : segs.map (passSeg kv) = segs := by
      have hid : ∀ sg ∈ segs, passSeg kv sg = sg := by
        intro sg hsg
        unfold passSeg substSeg
        split
        · rfl
        · next hvne =>
          split
          · next heq =>
            have hv2 : kv.2 ≠ [] := fun hnil => hvne (by rw [hnil]; rfl)
            exact absurd (heq ▸ hsg) (h kv (by simp) hv2)
          · rfl
      rw [List.map_congr_left hid]
      simp
    rw [hmap]
    exact ih segs (fun kv2 hk2 => h kv2 (by simp [hk2]))

/-- Claim C3 (amended): substitution is idempotent for well-formed content
(an alternation of brace-free literal segments and placeholders with
non-empty brace-free names) and a map whose keys are non-empty regex-safe
plain names and whose values are free of braces and of dollar characters:
re-running substitution on an already-substituted result with the same map
is a no-op. -/
theorem c3_idempotent_wellformed (segs : List Seg)
    (vars : List (List Char × List Char))
    (hsegs : segsOK segs = true) (hvars : varsOK vars = true) :
    replaceVariables (replaceVariables (render segs) vars) vars
      = replaceVariables (render segs) vars := by
  rw [replaceVariables_render vars segs hsegs hvars]
  have hsegs2 := segsOK_applyVars vars segs hsegs hvars
  rw [replaceVariables_render vars (applyVars vars segs) hsegs2 hvars]
  congr 1
  apply applyVars_stable
  intro kv hkv hv
  obtain ⟨k, v⟩ := kv
  exact ph_not_mem_applyVars vars segs k v hkv hv

/-- Claim C3, witness: idempotence instantiated at the well-formed content
`{a}!` with the map `a ↦ x`, together with the concrete value of the
substitution. -/
theorem c3_witness :
    replaceVariables
        (replaceVariables (render [Seg.ph ['a'], Seg.lit ['!']]) [(['a'], ['x'])])
        [(['a'], ['x'])]
      = replaceVariables (render [Seg.ph ['a'], Seg.lit ['!']]) [(['a'], ['x'])]
    ∧ replaceVariables (render [Seg.ph ['a'], Seg.lit ['!']]) [(['a'], ['x'])]
      = ['x', '!'] := by
  refine ⟨c3_idempotent_wellformed [Seg.ph ['a'], Seg.lit ['!']] [(['a'], ['x'])]
    (by decide) (by decide), ?_⟩
  simp [replaceVariables, replaceAllJS_eq_replaceAll, render, renderSeg, phLit, safeValue,
    escapeHtml, replaceAll, startsSeg]

/-- Claim C4: `extractPlaceholders` returns the distinct placeholder names
in first-occurrence order — its result has no duplicates, is a subsequence
of the scan's occurrence sequence with exactly the scanned names as
members, its elements are ordered by index of first occurrence, it is
empty when the scan has no match, and (being a pure function of the
content) it is deterministic. -/
theorem c4_extract_distinct_ordered (c : List Char) :
    (extractVariables c).Nodup
    ∧ List.Sublist (extractVariables c) (scanNames c)
    ∧ (∀ n, n ∈ extractVariables c ↔ n ∈ scanNames c)
    ∧ (extractVariables c).Pairwise
        (fun a b => firstIdx a (scanNames c) < firstIdx b (scanNames c))
    ∧ (scanNames c = [] → extractVariables c = [])
    ∧ extractVariables c = extractVariables c := by
  rw [extractVariables_eq]
  refine ⟨dedupAux_nodup _ _, dedupAux_sublist _ _, ?_, dedupAux_pairwise _ _, ?_, rfl⟩
  · intro n
    rw [mem_dedupAux]
    simp
  · intro h
    rw [h]
    rfl

/-- Claim C4, witness: content with no braces extracts the empty
sequence. -/
theorem c4_witness : extractVariables "ab".data = [] :=
  (c4_extract_distinct_ordered "ab".data).2.2.2.2.1 (by
    unfold scanNames
    rw [scanMatches_no_open "ab".data (by decide)]
    rfl)

/-- Claim C5, counterexample: the scan's pattern `[^}]+` excludes only the
close brace, so an extracted name can contain an open brace: on content
`{a{b}` the single extracted name is `a{b`, which contains `{`. -/
theorem c5_counterexample :
    extractVariables ['{', 'a', '{', 'b', '}'] = [['a', '{', 'b']]
    ∧ '{' ∈ (['a', '{', 'b'] : List Char) := by
  refine ⟨?_, by decide⟩
  simp [extractVariables, scanMatches, dedupAux, innerName]

/-- Claim C5 (amended): every name returned by `extractPlaceholders` is the
inner text of a span "open brace, one or more non-close-brace characters,
close brace": it is non-empty and contains no `}` (it may contain `{`). -/
theorem c5_names_shape (c : List Char) :
    ∀ n ∈ extractVariables c, n ≠ [] ∧ '}' ∉ n := by
  intro n hn
  rw [extractVariables_eq] at hn
  have h2 := ((mem_dedupAux _ _ n).mp hn).1
  unfold scanNames at h2
  obtain ⟨m, hm, rfl⟩ := List.mem_map.mp h2
  obtain ⟨name, rfl, hne, hclose⟩ := scanMatches_shape c m hm
  rw [innerName_phLit]
  exact ⟨hne, hclose⟩

/-- Claim C5, witness: the name extracted from `{a}` is non-empty and free
of close braces. -/
theorem c5_witness : (['a'] : List Char) ≠ [] ∧ '}' ∉ (['a'] : List Char) :=
  c5_names_shape ['{', 'a', '}'] ['a'] (by
    have h : extractVariables ['{', 'a', '}'] = [['a']] := by
      simp [extractVariables, scanMatches, dedupAux, innerName]
    rw [h]
    decide)

theorem regexSafe_not_throws {k : List Char} (h : regexSafeKey k = true) :
    keyRegexThrows k = false := by
  simp only [keyRegexThrows, decide_eq_false_iff_not]
  intro hcon
  simp only [regexSafeKey, List.all_eq_true] at h
  have h2 := h '(' hcon.1
  rw [show regexSafeChar '(' = false from by decide] at h2
  cases h2

theorem replaceVariablesE_cons_ok (s : List Char) (kv : List Char × List Char)
    (rest : List (List Char × List Char)) (h : keyRegexThrows kv.1 = false) :
    replaceVariablesE s (kv :: rest)
      = replaceVariablesE (replaceAllJS s (phLit kv.1) (safeValue kv.1 kv.2)) rest := by
  unfold replaceVariablesE
  rw [List.foldl_cons]
  simp [h]

theorem replaceVariablesE_cons_err (s : List Char) (kv : List Char × List Char)
    (rest : List (List Char × List Char)) (h : keyRegexThrows kv.1 = true) :
    replaceVariablesE s (kv :: rest) = Except.error "SyntaxError".data := by
  unfold replaceVariablesE
  rw [List.foldl_cons]
  simp only [h]
  induction rest with
  | nil => rfl
  | cons a b ih =>
    rw [List.foldl_cons]
    exact ih

/-- Claim C6, counterexample: the claim fails on the code as stated.  The
engine itself produces the placeholder name `(` from content `{(}`, and
feeding that name back as a map key makes `replaceVariables` throw: the
`new RegExp` construction of line 46 runs before the value is inspected
and the pattern contains an unclosed group, a SyntaxError — so `substitute`
does raise an error for some input string and values map. -/
theorem c6_counterexample :
    extractVariables ['{', '(', '}'] = [['(']]
    ∧ keyRegexThrows ['('] = true
    ∧ replaceVariablesE ['{', '(', '}'] [(['('], ([] : List Char))]
        = Except.error "SyntaxError".data := by
  refine ⟨?_, by decide, ?_⟩
  · simp [extractVariables, scanMatches, dedupAux, innerName]
  · exact replaceVariablesE_cons_err _ _ _ (by decide)

/-- Claim C6 (amended): `extractPlaceholders` and `normalizeLegacyContent`
never raise for any input (they are total functions), and for maps all of
whose keys are regex-safe — plain names free of regex syntax characters,
the only keys the engine is meant to receive — substitution never raises
(the `RegExp` constructions all succeed) and an unmatched open or close
brace outside a complete `{...}` pair is not treated as a placeholder and
passes through as literal text; but a key forming an unclosed regex group,
such as the name `(` that extraction itself produces from `{(}`, makes the
`RegExp` construction throw a SyntaxError before the value is inspected. -/
theorem c6_malformed_safe :
    (∀ (vars : List (List Char × List Char)) (s : List Char),
      (∀ kv ∈ vars, regexSafeKey kv.1 = true) →
      replaceVariablesE s vars = Except.ok (replaceVariables s vars))
    ∧ (∀ (vars : List (List Char × List Char)) (s : List Char),
      (∀ kv ∈ vars, regexSafeKey kv.1 = true) →
      '}' ∉ s → replaceVariables s vars = s)
    ∧ (∀ (vars : List (List Char × List Char)) (s : List Char),
      (∀ kv ∈ vars, regexSafeKey kv.1 = true) →
      '{' ∉ s → replaceVariables s vars = s)
    ∧ (∀ s : List Char, '{' ∉ s → extractVariables s = [])
    ∧ (∀ s : List Char, '}' ∉ s → extractVariables s = [])
    ∧ extractVariables [] = [] ∧ extractVariables ['{'] = []
    ∧ extractVariables ['}'] = [] ∧ extractVariables ['{', '}'] = []
    ∧ normalizeContent [] = [] := by
  have h1 : ∀ (vars : List (List Char × List Char)) (s : List Char),
      (∀ kv ∈ vars, regexSafeKey kv.1 = true) →
      replaceVariablesE s vars = Except.ok (replaceVariables s vars) := by
    intro vars
    induction vars with
    | nil => intro s _; rfl
    | cons kv rest ih =>
      intro s hsafe
      rw [replaceVariablesE_cons_ok s kv rest (regexSafe_not_throws (hsafe kv (by simp)))]
      rw [show replaceVariables s (kv :: rest)
          = replaceVariables (replaceAllJS s (phLit kv.1) (safeValue kv.1 kv.2)) rest
          from rfl]
      exact ih _ (fun x hx => hsafe x (by simp [hx]))
  have h3 : ∀ s : List Char, '{' ∉ s → extractVariables s = [] := by
    intro s h
    unfold extractVariables
    rw [scanMatches_no_open s h]
    rfl
  have h4 : ∀ s : List Char, '}' ∉ s → extractVariables s = [] := by
    intro s h
    unfold extractVariables
    rw [scanMatches_no_close s h]
    rfl
  refine ⟨h1, fun vars s _ hs => replaceVariables_id_of_no_close vars s hs,
    fun vars s _ hs => replaceVariables_id_of_no_open vars s hs,
    h3, h4, h3 [] (by decide), h4 ['{'] (by decide), h3 ['}'] (by decide), ?_, rfl⟩
  simp [extractVariables, scanMatches, dedupAux]

/-- Claim C6, witness: for a regex-safe key, substitution of a lone
unmatched open brace succeeds without error, passes the text through as a
literal, and extraction finds no placeholder. -/
theorem c6_witness :
    replaceVariablesE ['{', 'a'] [(['a'], ['x'])]
      = Except.ok (replaceVariables ['{', 'a'] [(['a'], ['x'])])
    ∧ replaceVariables ['{', 'a'] [(['a'], ['x'])] = ['{', 'a']
    ∧ extractVariables ['{', 'a'] = [] :=
  ⟨c6_malformed_safe.1 [(['a'], ['x'])] ['{', 'a'] (by decide),
   c6_malformed_safe.2.1 [(['a'], ['x'])] ['{', 'a'] (by decide) (by decide),
   c6_malformed_safe.2.2.2.2.1 ['{', 'a'] (by decide)⟩

/-- Claim C7: `normalizeLegacyContent` converts every raw newline to a
single `<br>` when the content has no markup tag but at least one newline
(in particular `Line one\nLine two` becomes `Line one<br>Line two`, and no
raw newline survives), and returns content already containing a markup tag
unchanged even if it also has raw newlines. -/
theorem c7_normalize_newlines :
    normalizeContent "Line one\nLine two".data = "Line one<br>Line two".data
    ∧ (∀ s : List Char, hasHtmlTag s = true → normalizeContent s = s)
    ∧ (∀ s : List Char, hasHtmlTag s = false → '\n' ∈ s →
        normalizeContent s = subChar '\n' "<br>".data s
        ∧ '\n' ∉ normalizeContent s) := by
  refine ⟨?_, fun s hs => normalizeContent_of_tag hs, fun s htag hnl => ?_⟩
  · rw [normalizeContent_convert (by decide) (by decide)]
    decide
  · refine ⟨normalizeContent_convert htag hnl, ?_⟩
    rw [normalizeContent_convert htag hnl]
    exact self_not_mem_subChar (by decide) s

/-- Claim C7, witness: content with a tag is unchanged despite its raw
newline; tagless content with a newline has none left after conversion. -/
theorem c7_witness :
    normalizeContent "a<b>x\ny".data = "a<b>x\ny".data
    ∧ '\n' ∉ normalizeContent "x\ny".data :=
  ⟨c7_normalize_newlines.2.1 "a<b>x\ny".data (by decide),
   (c7_normalize_newlines.2.2 "x\ny".data (by decide) (by decide)).2⟩

/-- Claim C8: on a parsed forest of well-formed markup, the plain-text
projection maps a line-break element to exactly one newline, follows each
`p`/`div`/`li`/`tr` element by one newline, strips all tag syntax (when
the text nodes hold no raw angle bracket the output holds none), preserves
the text content in document order (the text content is a subsequence of
the projection), and on `<p>Hi</p><p>There</p>` yields `Hi\nThere\n`. -/
theorem c8_plaintext_blocks :
    plainTextF [DomNode.elem "p".data [DomNode.text "Hi".data],
        DomNode.elem "p".data [DomNode.text "There".data]]
      = "Hi\nThere\n".data
    ∧ (∀ kids : List DomNode, plainTextF [DomNode.elem "br".data kids] = ['\n'])
    ∧ (∀ (tag : List Char) (kids : List DomNode), tag ∈ blockAfterTags →
        plainTextF [DomNode.elem tag kids] = plainTextF kids ++ ['\n'])
    ∧ (∀ ns : List DomNode, textAngleFree ns = true →
        '<' ∉ plainTextF ns ∧ '>' ∉ plainTextF ns)
    ∧ (∀ ns : List DomNode, brChildless ns = true →
        List.Sublist (textOnly ns) (plainTextF ns)) := by
  refine ⟨?_, ?_, ?_, angle_not_mem_plainTextF, textOnly_sublist_plainTextF⟩
  · simp [plainTextF, blockAfterTags]
  · intro kids
    simp [plainTextF]
  · intro tag kids htag
    have hbr : tag ≠ "br".data := by
      intro h
      subst h
      revert htag
      decide
    simp [plainTextF, hbr, htag]

/-- Claim C8, witness: the block, stripping and order facts instantiated
at a one-element `div` forest. -/
theorem c8_witness :
    plainTextF [DomNode.elem "div".data [DomNode.text "Hi".data]]
      = plainTextF [DomNode.text "Hi".data] ++ ['\n']
    ∧ ('<' ∉ plainTextF [DomNode.text "Hi".data]
        ∧ '>' ∉ plainTextF [DomNode.text "Hi".data])
    ∧ List.Sublist (textOnly [DomNode.text "Hi".data])
        (plainTextF [DomNode.text "Hi".data]) := by
  refine ⟨c8_plaintext_blocks.2.2.1 "div".data [DomNode.text "Hi".data] (by decide),
    c8_plaintext_blocks.2.2.2.1 [DomNode.text "Hi".data] ?_,
    c8_plaintext_blocks.2.2.2.2 [DomNode.text "Hi".data] ?_⟩
  · simp [textAngleFree]
  · simp [brChildless]

/-- Claim C9: with no API credential configured (the source's
`process.env.API_KEY || ''` is empty, hence falsy), the Content Assistant
rewrite fails with the configuration error before any provider
interaction: the outcome is the thrown message and is never a provider
request. -/
theorem c9_no_credential_aborts (currentContent instruction : List Char) :
    suggestContent [] currentContent instruction
      = SuggestOutcome.configError "API Key chưa được cấu hình.".data
    ∧ ∀ model prompt : List Char,
        suggestContent [] currentContent instruction
          ≠ SuggestOutcome.providerCall model prompt := by
  constructor
  · rfl
  · intro model prompt h
    rw [show suggestContent [] currentContent instruction
        = SuggestOutcome.configError "API Key chưa được cấu hình.".data from rfl] at h
    cases h

/-- Claim C9, witness: the configuration error at a concrete content and
instruction. -/
theorem c9_witness :
    suggestContent [] "abc".data "xyz".data
      = SuggestOutcome.configError "API Key chưa được cấu hình.".data :=
  (c9_no_credential_aborts "abc".data "xyz".data).1

end InsureChat
